import Mathlib

/-!
Verification of the progressive-overload engine of the workout-tracking
application (src/app.py).

Embedding conventions:
* Python `float` weights and the literal `0.6` are modelled as exact
  rationals (`ℚ`); Python `round(x, 1)` (round to the closest multiple of
  0.1, ties to even) is modelled by `round1` below.
* A row of the `SetLog` table, joined with its workout's `date` column
  (as in the query inside `get_last_session_sets`), is the record `SetRec`;
  dates are modelled as integers (ordinal days), ids as naturals.
* The SQL query in `get_last_session_sets` filters by `user_id` and
  `exercise_id` first; the functions here therefore take the already
  filtered history of one (user, exercise) pair, the engine's input.
* `reps`, `rep_min`, `rep_max`, `set_number`, `target_sets` are naturals
  (the data model declares reps and set numbers non-negative).
-/

namespace ProgressPrinciple

/-- One logged set: a `SetLog` row joined with its workout's date
(`id`, `workout_id`, `set_number`, `reps`, `weight` columns of `SetLog`,
plus `Workout.date` as `session_date`). -/
structure SetRec where
  id : Nat
  workout_id : Nat
  session_date : Int
  set_number : Nat
  reps : Nat
  weight : Rat
deriving DecidableEq, Repr

/-- The part of the `Exercise` model the engine reads: its muscle group. -/
structure Exercise where
  id : Nat
  muscle_group : String
deriving DecidableEq, Repr

/-- The part of the `Program` model that `is_deload_week` reads: the
nullable configured deload week number. -/
structure Program where
  deload_week : Option Int
deriving DecidableEq, Repr

/-- The `INCREMENT_LBS` dictionary of src/app.py, in source order. -/
def INCREMENT_LBS : List (String × Rat) :=
  [("legs", 5), ("chest", 5/2), ("back", 5/2), ("shoulders", 5/2),
   ("biceps", 5/2), ("triceps", 5/2), ("calves", 5), ("forearms", 5/2)]

/-- Dictionary lookup `INCREMENT_LBS.get(muscle_group, 2.5)` with
default 2.5. -/
def incrementGet (g : String) : Rat :=
  (INCREMENT_LBS.lookup g).getD (5/2)

/-- Round a rational to the nearest integer, ties to the even integer
(the rounding Python's builtin `round` documents). -/
def roundHalfEven (q : Rat) : Int :=
  let f := ⌊q⌋
  let r := q - f
  if r < 1/2 then f
  else if 1/2 < r then f + 1
  else if f % 2 = 0 then f else f + 1

/-- Python's `round(x, 1)`: round to the closest multiple of 1/10,
ties to even. -/
def round1 (q : Rat) : Rat :=
  (roundHalfEven (q * 10) : Rat) / 10

/-- Relation `laterRow s a`: row `s` sorts strictly before row `a` under
`order_by(desc(Workout.date), desc(SetLog.id))`, i.e. `s` is more recent. -/
def laterRow (s a : SetRec) : Bool :=
  decide (a.session_date < s.session_date) ||
    (decide (a.session_date = s.session_date) && decide (a.id < s.id))

/-- The `.first()` row of the history under
`order_by(desc(Workout.date), desc(SetLog.id))`: the row maximal in the
lexicographic (session_date, id) order.  `none` on an empty history. -/
def firstByRecency : List SetRec → Option SetRec
  | [] => none
  | s :: rest =>
    match firstByRecency rest with
    | none => some s
    | some a => if laterRow s a then some s else some a

/-- Model of `get_last_session_sets`: find the most recent workout containing the
exercise (by date desc, then id desc), then return that workout's rows
ordered by `set_number` ascending.  Empty history gives `[]`. -/
def getLastSessionSets (history : List SetRec) : List SetRec :=
  match firstByRecency history with
  | none => []
  | some last =>
    (history.filter (fun s => s.workout_id == last.workout_id)).mergeSort
      (fun a b => decide (a.set_number ≤ b.set_number))

/-- Python `max(s.reps for s in last_sets)` (the empty case, which the
caller never reaches, is given the junk value 0). -/
def bestRepsOf : List SetRec → Nat
  | [] => 0
  | s :: rest => rest.foldl (fun a t => max a t.reps) s.reps

/-- Python `max(s.weight for s in last_sets)` (junk value 0 on `[]`). -/
def topWeightOf : List SetRec → Rat
  | [] => 0
  | s :: rest => rest.foldl (fun a t => max a t.weight) s.weight

/-- Model of `compute_session_targets`: the double-progression target computation
of src/app.py, returning (rep_target, suggested_weight, last_top_weight).
The history stands for the set rows the function fetches through
`get_last_session_sets`. -/
def computeSessionTargets (history : List SetRec) (rep_min rep_max : Nat)
    (exercise : Exercise) (deload : Bool) : Nat × Option Rat × Option Rat :=
  let last_sets := getLastSessionSets history
  match last_sets with
  | [] => (rep_min, none, none)
  | _ :: _ =>
    let best_reps := bestRepsOf last_sets
    let last_top_weight := topWeightOf last_sets
    if rep_max ≤ best_reps then
      let inc := incrementGet exercise.muscle_group
      (rep_min, some (round1 (last_top_weight + inc)), some last_top_weight)
    else
      (min (best_reps + 1) rep_max, none, some last_top_weight)

/-- Model of `mark_progress`: true when the weight beats the prior session's top
weight (if known), otherwise true exactly when reps reach the target. -/
def markProgress (rep_target reps : Nat) (weight : Rat)
    (last_top_weight : Option Rat) : Bool :=
  match last_top_weight with
  | some w0 => if w0 < weight then true else decide (rep_target ≤ reps)
  | none => decide (rep_target ≤ reps)

/-- Model of `is_deload_week`: the program has a configured deload week and the
given week equals it. -/
def isDeloadWeek (p : Program) (week_num : Int) : Bool :=
  match p.deload_week with
  | none => false
  | some d => week_num == d

/-- The set-count prescription in `log_program_day`:
`max(1, ceil(target_sets * 0.6)) if deload_now else target_sets`. -/
def setsThisSession (target_sets : Nat) (deload : Bool) : Nat :=
  if deload then max 1 (Int.toNat ⌈(target_sets : Rat) * (6/10)⌉)
  else target_sets

/-- Spec-side notion of "b is the maximum of `f` over the sets `l`":
every element is at most `b` and some element attains `b`. -/
def isMaxOf {β : Type} [LinearOrder β] (f : SetRec → β) (l : List SetRec)
    (b : β) : Prop :=
  (∀ s ∈ l, f s ≤ b) ∧ ∃ s ∈ l, f s = b

/- ---------------------------------------------------------------- -/
/- Helper lemmas -/
/- ---------------------------------------------------------------- -/

section FoldMax

variable {β : Type} [LinearOrder β] (f : SetRec → β)

lemma foldl_max_acc_le :
    ∀ (l : List SetRec) (a : β), a ≤ l.foldl (fun acc t => max acc (f t)) a := by
  intro l
  induction l with
  | nil => intro a; exact le_refl a
  | cons s rest ih =>
    intro a
    exact le_trans (le_max_left a (f s)) (ih (max a (f s)))

lemma foldl_max_mem_le :
    ∀ (l : List SetRec) (a : β) (s : SetRec), s ∈ l →
      f s ≤ l.foldl (fun acc t => max acc (f t)) a := by
  intro l
  induction l with
  | nil => intro a s hs; cases hs
  | cons x rest ih =>
    intro a s hs
    rcases List.mem_cons.mp hs with h | h
    · subst h
      exact le_trans (le_max_right a (f s)) (foldl_max_acc_le f rest (max a (f s)))
    · exact ih (max a (f x)) s h

lemma foldl_max_attained :
    ∀ (l : List SetRec) (a : β),
      l.foldl (fun acc t => max acc (f t)) a = a ∨
        ∃ s ∈ l, f s = l.foldl (fun acc t => max acc (f t)) a := by
  intro l
  induction l with
  | nil => intro a; exact Or.inl rfl
  | cons x rest ih =>
    intro a
    rcases ih (max a (f x)) with h | h
    · by_cases hax : a ≤ f x
      · refine Or.inr ⟨x, List.mem_cons_self x rest, ?_⟩
        simpa [List.foldl_cons, h] using (max_eq_right hax).symm
      · refine Or.inl ?_
        simpa [List.foldl_cons, h] using max_eq_left (le_of_not_le hax)
    · rcases h with ⟨s, hs, hfs⟩
      exact Or.inr ⟨s, List.mem_cons_of_mem x hs, hfs⟩

lemma foldl_max_isMax (s : SetRec) (rest : List SetRec) :
    isMaxOf f (s :: rest) (rest.foldl (fun acc t => max acc (f t)) (f s)) := by
  constructor
  · intro t ht
    rcases List.mem_cons.mp ht with h | h
    · subst h; exact foldl_max_acc_le f rest (f t)
    · exact foldl_max_mem_le f rest (f s) t h
  · rcases foldl_max_attained f rest (f s) with h | h
    · exact ⟨s, List.mem_cons_self s rest, h.symm⟩
    · rcases h with ⟨t, ht, hft⟩
      exact ⟨t, List.mem_cons_of_mem s ht, hft⟩

end FoldMax

lemma bestRepsOf_isMax (l : List SetRec) (h : l ≠ []) :
    isMaxOf (fun s => s.reps) l (bestRepsOf l) := by
  cases l with
  | nil => exact absurd rfl h
  | cons s rest => exact foldl_max_isMax (fun s => s.reps) s rest

lemma topWeightOf_isMax (l : List SetRec) (h : l ≠ []) :
    isMaxOf (fun s => s.weight) l (topWeightOf l) := by
  cases l with
  | nil => exact absurd rfl h
  | cons s rest => exact foldl_max_isMax (fun s => s.weight) s rest

lemma isMaxOf_unique {β : Type} [LinearOrder β] (f : SetRec → β)
    (l : List SetRec) (b b' : β)
    (hb : isMaxOf f l b) (hb' : isMaxOf f l b') : b = b' := by
  rcases hb with ⟨hub, s, hs, hfs⟩
  rcases hb' with ⟨hub', t, ht, hft⟩
  exact le_antisymm (hfs ▸ hub' s hs) (hft ▸ hub t ht)

/-- Spec-side recency order on set rows: `s` is no more recent than `w`
(primary key session date, tie-break row id). -/
def recencyLE (s w : SetRec) : Prop :=
  s.session_date < w.session_date ∨
    (s.session_date = w.session_date ∧ s.id ≤ w.id)

lemma recencyLE_of_not_later {s a : SetRec} (h : laterRow s a = false) :
    recencyLE s a := by
  unfold laterRow at h
  unfold recencyLE
  simp only [Bool.or_eq_false_iff, Bool.and_eq_false_iff,
    decide_eq_false_iff_not] at h
  omega

lemma recencyLE_trans_later {s a x : SetRec} (hsa : recencyLE s a)
    (hl : laterRow x a = true) : recencyLE s x := by
  unfold laterRow at hl
  unfold recencyLE at hsa ⊢
  simp only [Bool.or_eq_true, Bool.and_eq_true, decide_eq_true_eq] at hl
  omega

lemma firstByRecency_eq_none_iff (l : List SetRec) :
    firstByRecency l = none ↔ l = [] := by
  cases l with
  | nil => simp [firstByRecency]
  | cons s rest =>
    cases h : firstByRecency rest with
    | none => simp [firstByRecency, h]
    | some a =>
      simp only [firstByRecency, h]
      split <;> simp

lemma firstByRecency_mem : ∀ {l : List SetRec} {w : SetRec},
    firstByRecency l = some w → w ∈ l := by
  intro l
  induction l with
  | nil => intro w h; simp [firstByRecency] at h
  | cons s rest ih =>
    intro w h
    cases hr : firstByRecency rest with
    | none =>
      simp only [firstByRecency, hr, Option.some.injEq] at h
      exact h ▸ List.mem_cons_self s rest
    | some a =>
      simp only [firstByRecency, hr] at h
      by_cases hl : laterRow s a
      · rw [if_pos hl] at h
        exact (Option.some.injEq _ _ ▸ h) ▸ List.mem_cons_self s rest
      · rw [if_neg hl] at h
        have ha : a = w := Option.some.injEq _ _ ▸ h
        exact List.mem_cons_of_mem s (ih (ha ▸ hr))

lemma firstByRecency_max : ∀ {l : List SetRec} {w : SetRec},
    firstByRecency l = some w → ∀ s ∈ l, recencyLE s w := by
  intro l
  induction l with
  | nil => intro w _ s hs; cases hs
  | cons x rest ih =>
    intro w h s hs
    cases hr : firstByRecency rest with
    | none =>
      have hrest : rest = [] := (firstByRecency_eq_none_iff rest).mp hr
      simp only [firstByRecency, hr, Option.some.injEq] at h
      subst hrest
      rcases List.mem_cons.mp hs with hsx | hsx
      · subst hsx
        exact h ▸ Or.inr ⟨rfl, le_refl _⟩
      · cases hsx
    | some a =>
      simp only [firstByRecency, hr] at h
      by_cases hl : laterRow x a
      · rw [if_pos hl] at h
        have hw : x = w := Option.some.injEq _ _ ▸ h
        subst hw
        rcases List.mem_cons.mp hs with hsx | hsx
        · subst hsx; exact Or.inr ⟨rfl, le_refl _⟩
        · exact recencyLE_trans_later (ih hr s hsx) hl
      · rw [if_neg hl] at h
        have hw : a = w := Option.some.injEq _ _ ▸ h
        subst hw
        rcases List.mem_cons.mp hs with hsx | hsx
        · subst hsx; exact recencyLE_of_not_later (Bool.of_not_eq_true hl)
        · exact ih hr s hsx

lemma computeSessionTargets_nilLast (history : List SetRec)
    (rep_min rep_max : Nat) (exercise : Exercise) (deload : Bool)
    (hls : getLastSessionSets history = []) :
    computeSessionTargets history rep_min rep_max exercise deload
      = (rep_min, none, none) := by
  simp only [computeSessionTargets, hls]

/- ---------------------------------------------------------------- -/
/- Theorems -/
/- ---------------------------------------------------------------- -/

lemma computeSessionTargets_cons (history : List SetRec)
    (rep_min rep_max : Nat) (exercise : Exercise) (deload : Bool)
    (a : SetRec) (l : List SetRec)
    (hls : getLastSessionSets history = a :: l) :
    computeSessionTargets history rep_min rep_max exercise deload =
      if rep_max ≤ bestRepsOf (a :: l) then
        (rep_min,
         some (round1 (topWeightOf (a :: l) + incrementGet exercise.muscle_group)),
         some (topWeightOf (a :: l)))
      else
        (min (bestRepsOf (a :: l) + 1) rep_max, none,
         some (topWeightOf (a :: l))) := by
  simp only [computeSessionTargets, hls]

lemma incrementGet_default (g : String)
    (hg : g ∉ INCREMENT_LBS.map Prod.fst) : incrementGet g = 5/2 := by
  simp only [INCREMENT_LBS, List.map_cons, List.map_nil, List.mem_cons,
    List.not_mem_nil, or_false, not_or] at hg
  obtain ⟨h1, h2, h3, h4, h5, h6, h7, h8⟩ := hg
  simp [incrementGet, INCREMENT_LBS, List.lookup,
    beq_eq_false_iff_ne.mpr h1, beq_eq_false_iff_ne.mpr h2,
    beq_eq_false_iff_ne.mpr h3, beq_eq_false_iff_ne.mpr h4,
    beq_eq_false_iff_ne.mpr h5, beq_eq_false_iff_ne.mpr h6,
    beq_eq_false_iff_ne.mpr h7, beq_eq_false_iff_ne.mpr h8]

/-- C1: on a non-empty last session whose best reps reach or exceed
`rep_max` (overshoot treated identically), the targets are
`rep_target = rep_min` and `suggested_weight = round1` of the last top
weight plus the muscle-group increment; the increment table maps legs and
calves to 5.0, the other listed groups to 2.5, and any unrecognized
muscle group defaults to 2.5. -/
theorem computeSessionTargets_at_rep_max (history : List SetRec)
    (rep_min rep_max : Nat) (exercise : Exercise) (deload : Bool)
    (best_reps : Nat) (last_top_weight : Rat)
    (hne : getLastSessionSets history ≠ [])
    (hbest : isMaxOf (fun s => s.reps) (getLastSessionSets history) best_reps)
    (htop : isMaxOf (fun s => s.weight) (getLastSessionSets history) last_top_weight)
    (hge : rep_max ≤ best_reps) :
    computeSessionTargets history rep_min rep_max exercise deload
      = (rep_min,
         some (round1 (last_top_weight + incrementGet exercise.muscle_group)),
         some last_top_weight) ∧
    incrementGet "legs" = 5 ∧ incrementGet "calves" = 5 ∧
    incrementGet "chest" = 5/2 ∧ incrementGet "back" = 5/2 ∧
    incrementGet "shoulders" = 5/2 ∧ incrementGet "biceps" = 5/2 ∧
    incrementGet "triceps" = 5/2 ∧ incrementGet "forearms" = 5/2 ∧
    ∀ g : String, g ∉ INCREMENT_LBS.map Prod.fst → incrementGet g = 5/2 := by
  cases hls : getLastSessionSets history with
  | nil => exact absurd hls hne
  | cons a l =>
    rw [hls] at hbest htop
    have hb : best_reps = bestRepsOf (a :: l) :=
      isMaxOf_unique _ _ _ _ hbest (bestRepsOf_isMax _ (by simp))
    have hw : last_top_weight = topWeightOf (a :: l) :=
      isMaxOf_unique _ _ _ _ htop (topWeightOf_isMax _ (by simp))
    refine ⟨?_, rfl, rfl, rfl, rfl, rfl, rfl, rfl, rfl, incrementGet_default⟩
    rw [computeSessionTargets_cons history rep_min rep_max exercise deload a l hls,
      if_pos (hb ▸ hge), hw]

/-- C2: on a non-empty last session whose best reps fall strictly below
`rep_max`, the targets are `rep_target = min (best_reps + 1) rep_max`,
no suggested weight, and `last_top_weight` the maximum logged weight. -/
theorem computeSessionTargets_below_rep_max (history : List SetRec)
    (rep_min rep_max : Nat) (exercise : Exercise) (deload : Bool)
    (best_reps : Nat) (last_top_weight : Rat)
    (hne : getLastSessionSets history ≠ [])
    (hbest : isMaxOf (fun s => s.reps) (getLastSessionSets history) best_reps)
    (htop : isMaxOf (fun s => s.weight) (getLastSessionSets history) last_top_weight)
    (hlt : best_reps < rep_max) :
    computeSessionTargets history rep_min rep_max exercise deload
      = (min (best_reps + 1) rep_max, none, some last_top_weight) := by
  cases hls : getLastSessionSets history with
  | nil => exact absurd hls hne
  | cons a l =>
    rw [hls] at hbest htop
    have hb : best_reps = bestRepsOf (a :: l) :=
      isMaxOf_unique _ _ _ _ hbest (bestRepsOf_isMax _ (by simp))
    have hw : last_top_weight = topWeightOf (a :: l) :=
      isMaxOf_unique _ _ _ _ htop (topWeightOf_isMax _ (by simp))
    rw [computeSessionTargets_cons history rep_min rep_max exercise deload a l hls,
      if_neg (by rw [← hb]; exact Nat.not_le.mpr hlt), hb, hw]

/-- C5: `mark_progress` is true exactly when the weight strictly beats a
known prior top weight, or, failing that, the reps reach the target. -/
theorem markProgress_iff (rep_target reps : Nat) (weight : Rat)
    (last_top_weight : Option Rat) :
    markProgress rep_target reps weight last_top_weight = true ↔
      ((∃ w0, last_top_weight = some w0 ∧ w0 < weight) ∨ rep_target ≤ reps) := by
  cases last_top_weight with
  | none => simp [markProgress]
  | some w0 =>
    by_cases h : w0 < weight <;> simp [markProgress, h]

/-- C3: on an empty history `compute_session_targets` returns
(rep_min, None, None), for every rep range, exercise and deload flag. -/
theorem computeSessionTargets_empty (rep_min rep_max : Nat)
    (exercise : Exercise) (deload : Bool) :
    computeSessionTargets [] rep_min rep_max exercise deload
      = (rep_min, none, none) := rfl

/-- C8: `is_deload_week` is true exactly when the program has a configured
deload week number and the given week number equals it. -/
theorem isDeloadWeek_iff (p : Program) (week_num : Int) :
    isDeloadWeek p week_num = true ↔
      ∃ d, p.deload_week = some d ∧ week_num = d := by
  cases h : p.deload_week with
  | none => simp [isDeloadWeek, h]
  | some d => simp [isDeloadWeek, h]

/-- C9: the deload flag does not influence `compute_session_targets`:
the result is identical whether the flag is true or false
(noninterference in the `deload` argument). -/
theorem computeSessionTargets_deload_noninterference
    (history : List SetRec) (rep_min rep_max : Nat) (exercise : Exercise) :
    computeSessionTargets history rep_min rep_max exercise true
      = computeSessionTargets history rep_min rep_max exercise false := rfl

/-- Last session of the C1 witness scenario: one workout (id 10) with
three sets of 8 reps at weight 225. -/
def hist1 : List SetRec :=
  [⟨1, 10, 100, 1, 8, 225⟩, ⟨2, 10, 100, 2, 8, 225⟩, ⟨3, 10, 100, 3, 8, 225⟩]

unseal List.merge List.mergeSort in
/-- Witness for C1: Back Squat scenario (muscle group "legs", rep range
5–8, last session 3×8 at 225) gives targets (5, 230.0, 225). -/
theorem computeSessionTargets_at_rep_max_witness :
    getLastSessionSets hist1 ≠ [] ∧
    computeSessionTargets hist1 5 8 ⟨7, "legs"⟩ false
      = (5, some 230, some 225) := by
  have h := computeSessionTargets_at_rep_max hist1 5 8 ⟨7, "legs"⟩ false 8 225
    (by decide) ⟨by decide, by decide⟩ ⟨by decide, by decide⟩ (by decide)
  refine ⟨by decide, ?_⟩
  rw [h.1]
  norm_num [round1, roundHalfEven, incrementGet, INCREMENT_LBS, List.lookup]

/-- Last session of the C2 witness scenario: one workout (id 10) with
three sets of 6 reps at weight 225. -/
def hist2 : List SetRec :=
  [⟨1, 10, 100, 1, 6, 225⟩, ⟨2, 10, 100, 2, 6, 225⟩, ⟨3, 10, 100, 3, 6, 225⟩]

unseal List.merge List.mergeSort in
/-- Witness for C2: rep range 5–8 with a last session of 3×6 at 225
gives targets (7, no suggestion, 225). -/
theorem computeSessionTargets_below_rep_max_witness :
    getLastSessionSets hist2 ≠ [] ∧
    computeSessionTargets hist2 5 8 ⟨7, "legs"⟩ false
      = (7, none, some 225) := by
  have h := computeSessionTargets_below_rep_max hist2 5 8 ⟨7, "legs"⟩ false 6 225
    (by decide) ⟨by decide, by decide⟩ ⟨by decide, by decide⟩ (by decide)
  exact ⟨by decide, h⟩

/-- C7: the deload volume policy.  Under a deload the session's set count
is `max 1 ⌈target_sets * 0.6⌉` — equivalently the natural number
`max 1 ((3 * target_sets + 4) / 5)` — and otherwise it is `target_sets`
unchanged; in particular 5 target sets deload to 3 and 1 target set
deloads to 1. -/
theorem setsThisSession_spec (target_sets : Nat) (h : 1 ≤ target_sets) :
    setsThisSession target_sets true = max 1 ((3 * target_sets + 4) / 5) ∧
    setsThisSession target_sets false = target_sets ∧
    setsThisSession 5 true = 3 ∧ setsThisSession 1 true = 1 := by
  have key : ∀ m : ℕ, setsThisSession m true = max 1 ((3 * m + 4) / 5) := by
    intro m
    unfold setsThisSession
    rw [if_pos rfl]
    have hk1 : 3 * m ≤ 5 * ((3 * m + 4) / 5) := by omega
    have hk2 : 5 * ((3 * m + 4) / 5) ≤ 3 * m + 4 := by omega
    qify at hk1 hk2
    have e : (m : ℚ) * (6 / 10) = 3 * (m : ℚ) / 5 := by ring
    have hc : ⌈(m : ℚ) * (6 / 10)⌉ = (((3 * m + 4) / 5 : ℕ) : ℤ) := by
      rw [Int.ceil_eq_iff]
      push_cast
      rw [e]
      constructor
      · rw [lt_div_iff₀ (by norm_num : (0:ℚ) < 5)]
        linarith
      · rw [div_le_iff₀ (by norm_num : (0:ℚ) < 5)]
        linarith
    rw [hc, Int.toNat_ofNat]
  exact ⟨key target_sets, rfl, by rw [key 5]; decide, by rw [key 1]; decide⟩

/-- Witness for C7: the theorem applied at 5 target sets. -/
theorem setsThisSession_spec_witness :
    setsThisSession 5 true = max 1 ((3 * 5 + 4) / 5) ∧
    setsThisSession 5 false = 5 ∧
    setsThisSession 5 true = 3 ∧ setsThisSession 1 true = 1 :=
  setsThisSession_spec 5 (by decide)

/-- C6: the last-session lookup.  On an empty history it returns the
empty sequence; otherwise there is a most recent row `w` (every row of
the history is at or below `w` in the (session_date, id) recency order)
such that the result is exactly the rows of `w`'s workout — a permutation
of the history filtered to `w.workout_id` — ordered by set number
ascending. -/
theorem getLastSessionSets_spec (history : List SetRec) :
    (history = [] → getLastSessionSets history = []) ∧
    (history ≠ [] →
      ∃ w ∈ history,
        (∀ s ∈ history, recencyLE s w) ∧
        (getLastSessionSets history).Perm
          (history.filter (fun s => s.workout_id == w.workout_id)) ∧
        (getLastSessionSets history).Pairwise
          (fun a b => a.set_number ≤ b.set_number)) := by
  constructor
  · intro h; subst h; rfl
  · intro hne
    cases hf : firstByRecency history with
    | none => exact absurd ((firstByRecency_eq_none_iff history).mp hf) hne
    | some w =>
      refine ⟨w, firstByRecency_mem hf, firstByRecency_max hf, ?_, ?_⟩
      · unfold getLastSessionSets
        rw [hf]
        exact List.mergeSort_perm _ _
      · unfold getLastSessionSets
        rw [hf]
        refine List.Pairwise.imp ?_
          (List.sorted_mergeSort ?_ ?_
            (history.filter (fun s => s.workout_id == w.workout_id)))
        · intro a b hab
          exact of_decide_eq_true hab
        · intro a b c hab hbc
          simp only [decide_eq_true_eq] at *
          omega
        · intro a b
          simp only [Bool.or_eq_true, decide_eq_true_eq]
          exact Nat.le_total _ _

/-- History for the C6 witness: two workouts (ids 10 and 20) on
different dates, the later one logged with set numbers out of order. -/
def hist6 : List SetRec :=
  [⟨1, 10, 100, 1, 5, 100⟩, ⟨2, 10, 100, 2, 5, 105⟩,
   ⟨3, 20, 200, 2, 6, 110⟩, ⟨4, 20, 200, 1, 6, 115⟩]

/-- Witness for C6: the lookup contract instantiated on `hist6`. -/
theorem getLastSessionSets_spec_witness :
    ∃ w ∈ hist6,
      (∀ s ∈ hist6, recencyLE s w) ∧
      (getLastSessionSets hist6).Perm
        (hist6.filter (fun s => s.workout_id == w.workout_id)) ∧
      (getLastSessionSets hist6).Pairwise
        (fun a b => a.set_number ≤ b.set_number) :=
  (getLastSessionSets_spec hist6).2 (by decide)

/-- History refuting C4 as stated: one set of 2 reps at weight 100. -/
def hist4 : List SetRec := [⟨1, 30, 50, 1, 2, 100⟩]

unseal List.merge List.mergeSort in
/-- Counterexample to C4 as stated: with rep range 5–8 (so
`rep_min ≤ rep_max`), non-negative reps and weights, and a last session
whose best reps is 2, the computed rep target is 2 + 1 = 3, which lies
below `rep_min = 5`. -/
theorem computeSessionTargets_rep_target_below_min :
    5 ≤ 8 ∧ (∀ s ∈ hist4, 0 ≤ s.weight) ∧
    (computeSessionTargets hist4 5 8 ⟨7, "chest"⟩ false).1 = 3 ∧
    ¬(5 ≤ (computeSessionTargets hist4 5 8 ⟨7, "chest"⟩ false).1 ∧
      (computeSessionTargets hist4 5 8 ⟨7, "chest"⟩ false).1 ≤ 8) := by
  decide

/-- C4 (amended): under the data-model preconditions, the rep target
never exceeds `rep_max`; and it is at least `rep_min` whenever the last
session is empty, or its best reps reached `rep_max`, or its best reps
was at least `rep_min - 1` — the remaining case (a short prior session
with `best_reps + 1 < rep_min`) yields `best_reps + 1`, below
`rep_min`. -/
theorem computeSessionTargets_rep_target_range (history : List SetRec)
    (rep_min rep_max : Nat) (exercise : Exercise) (deload : Bool)
    (hrange : rep_min ≤ rep_max) :
    (computeSessionTargets history rep_min rep_max exercise deload).1
      ≤ rep_max ∧
    ((getLastSessionSets history = [] ∨
      rep_max ≤ bestRepsOf (getLastSessionSets history) ∨
      rep_min ≤ bestRepsOf (getLastSessionSets history) + 1) →
      rep_min ≤
        (computeSessionTargets history rep_min rep_max exercise deload).1) := by
  cases hls : getLastSessionSets history with
  | nil =>
    rw [computeSessionTargets_nilLast history rep_min rep_max exercise deload hls]
    exact ⟨hrange, fun _ => le_refl _⟩
  | cons a l =>
    rw [computeSessionTargets_cons history rep_min rep_max exercise deload a l hls]
    by_cases hb : rep_max ≤ bestRepsOf (a :: l)
    · rw [if_pos hb]
      exact ⟨hrange, fun _ => le_refl _⟩
    · rw [if_neg hb]
      refine ⟨min_le_right _ _, ?_⟩
      intro hcase
      rcases hcase with hnil | hge | hmin
      · exact (List.cons_ne_nil a l hnil).elim
      · exact absurd hge hb
      · exact le_min hmin hrange

/-- Witness for C4 (amended): the range bounds instantiated on the
3×6-at-225 history with rep range 5–8. -/
theorem computeSessionTargets_rep_target_range_witness :
    (computeSessionTargets hist2 5 8 ⟨7, "legs"⟩ false).1 ≤ 8 ∧
    ((getLastSessionSets hist2 = [] ∨
      8 ≤ bestRepsOf (getLastSessionSets hist2) ∨
      5 ≤ bestRepsOf (getLastSessionSets hist2) + 1) →
      5 ≤ (computeSessionTargets hist2 5 8 ⟨7, "legs"⟩ false).1) :=
  computeSessionTargets_rep_target_range hist2 5 8 ⟨7, "legs"⟩ false (by decide)

lemma roundHalfEven_ge (q : Rat) : q - 1/2 ≤ (roundHalfEven q : Rat) := by
  have hfl : (⌊q⌋ : Rat) ≤ q := Int.floor_le q
  have hfu : q < ⌊q⌋ + 1 := Int.lt_floor_add_one q
  unfold roundHalfEven
  dsimp only
  split_ifs with h1 h2 h3 <;> push_cast <;> linarith

lemma round1_ge (q : Rat) : q - 1/20 ≤ round1 q := by
  have h := roundHalfEven_ge (q * 10)
  unfold round1
  rw [le_div_iff₀ (by norm_num : (0:Rat) < 10)]
  linarith

lemma incrementGet_ge (g : String) : 5/2 ≤ incrementGet g := by
  simp only [incrementGet, INCREMENT_LBS, List.lookup]
  repeat' split <;> norm_num

/-- C10: whenever `compute_session_targets` suggests a weight, it also
reports the prior top weight, and the suggestion is strictly above it:
every increment is at least 2.5 and rounding to one decimal place can
lower a value by at most 0.05. -/
theorem computeSessionTargets_suggested_gt_top (history : List SetRec)
    (rep_min rep_max : Nat) (exercise : Exercise) (deload : Bool) (sw : Rat)
    (hsw : (computeSessionTargets history rep_min rep_max exercise deload).2.1
      = some sw) :
    ∃ top,
      (computeSessionTargets history rep_min rep_max exercise deload).2.2
        = some top ∧ top < sw := by
  cases hls : getLastSessionSets history with
  | nil =>
    rw [computeSessionTargets_nilLast history rep_min rep_max exercise deload hls]
      at hsw
    cases hsw
  | cons a l =>
    rw [computeSessionTargets_cons history rep_min rep_max exercise deload a l hls]
      at hsw ⊢
    by_cases hb : rep_max ≤ bestRepsOf (a :: l)
    · rw [if_pos hb] at hsw ⊢
      have hval : round1 (topWeightOf (a :: l) + incrementGet exercise.muscle_group)
          = sw := by
        simpa using hsw
      refine ⟨topWeightOf (a :: l), rfl, ?_⟩
      have h1 := round1_ge (topWeightOf (a :: l) + incrementGet exercise.muscle_group)
      have h2 := incrementGet_ge exercise.muscle_group
      rw [← hval]
      linarith
    · rw [if_neg hb] at hsw
      cases hsw

/-- History for the C10 witness: one prior set of 9 reps at weight 100,
overshooting the rep ceiling. -/
def hist10 : List SetRec := [⟨1, 40, 70, 1, 9, 100⟩]

/-- Witness for C10: with the legs increment, the suggestion
`round1 (100 + 5)` is strictly above the prior top weight 100. -/
theorem computeSessionTargets_suggested_gt_top_witness :
    ∃ top,
      (computeSessionTargets hist10 5 8 ⟨9, "legs"⟩ true).2.2
        = some top ∧ top < round1 (100 + incrementGet "legs") :=
  computeSessionTargets_suggested_gt_top hist10 5 8 ⟨9, "legs"⟩ true
    (round1 (100 + incrementGet "legs"))
    (by simp [computeSessionTargets, getLastSessionSets, firstByRecency,
      hist10, bestRepsOf, topWeightOf])

end ProgressPrinciple
